import Mathlib

/-!
# Verification of the attendance / grade / roster reconciliation core

Shallow embedding of the data-shaping core of a role-based academic portal
(status normalization, attendance statistics, roster-id normalization,
roster reconciliation, grade aggregation, department bucketing, finance
invariant), together with theorems checking the specification's claims.

Numbers are modelled by `ℚ` (the formulas in the source are exact on the
inputs of interest); `Math.round` is modelled exactly (round half towards
positive infinity); where IEEE-754 special values matter (`NaN`,
infinities) an explicit `JSNum` type models them.
-/

namespace Portal

/-- JS `Math.round`: round half towards positive infinity. -/
def jsRound (q : ℚ) : ℤ := ⌊q + 1 / 2⌋

/-- ASCII lower-casing of one character, the semantics of JS
`toLowerCase` on the inputs this code distinguishes. -/
def asciiToLower (c : Char) : Char :=
  if 'A' ≤ c ∧ c ≤ 'Z' then Char.ofNat (c.toNat + 32) else c

/-- JS `String.prototype.trim`: drop whitespace from both ends. -/
def jsTrim (s : String) : String :=
  ⟨((s.data.dropWhile Char.isWhitespace).reverse.dropWhile Char.isWhitespace).reverse⟩

/-- JS `String.prototype.toLowerCase` (ASCII fragment). -/
def jsToLower (s : String) : String := ⟨s.data.map asciiToLower⟩

/-! ## Status Normalizer (`src/lib/attendanceUtils.ts`) -/

/-- The closed three-value status enumeration. -/
inductive NormalizedStatus where
  | present
  | late
  | absent
deriving DecidableEq, Repr

/-- The fixed synonym table `STATUS_MAP` of `attendanceUtils.ts`,
as a lookup function (JS object lookup, `?? null` modelled by `Option`). -/
def STATUS_MAP : String → Option NormalizedStatus
  | "present" => some .present
  | "attended" => some .present
  | "on-time" => some .present
  | "ontime" => some .present
  | "p" => some .present
  | "1" => some .present
  | "true" => some .present
  | "late" => some .late
  | "tardy" => some .late
  | "l" => some .late
  | "absent" => some .absent
  | "missed" => some .absent
  | "excused" => some .absent
  | "a" => some .absent
  | "0" => some .absent
  | "false" => some .absent
  | _ => none

/-- `normalizeAttendanceStatus` of `attendanceUtils.ts`.  `none` input models
`null`/`undefined`; a raw string is trimmed and lower-cased, the empty result
short-circuits to `null`, otherwise the synonym table decides. -/
def normalizeAttendanceStatus : Option String → Option NormalizedStatus
  | none => none
  | some status =>
    let normalized := jsToLower (jsTrim status)
    if normalized = "" then none else STATUS_MAP normalized

/-! ## Attendance Statistics Engine (`src/lib/attendanceUtils.ts`) -/

/-- An attendance row as the statistics engine sees it: the `status` field is
kept raw (a string), since rows arrive from a partially trusted store and are
re-normalized on read. -/
structure AttendanceRecord where
  id : String
  studentId : String
  courseId : Option String
  lessonId : String
  courseName : String
  date : String
  status : String
deriving DecidableEq, Repr

/-- Result shape of `calculateAttendanceStats`. -/
structure AttendanceStats where
  total : Nat
  present : Nat
  late : Nat
  absent : Nat
  percentage : ℤ
  rate : ℤ
deriving DecidableEq, Repr

/-- Intermediate counters of the `for`-loop in `calculateAttendanceStats`. -/
structure AttendanceCounts where
  total : Nat
  present : Nat
  late : Nat
  absent : Nat
deriving DecidableEq, Repr

/-- One iteration of the counting loop: unrecognized statuses are skipped. -/
def countStep (s : AttendanceCounts) (r : AttendanceRecord) : AttendanceCounts :=
  match normalizeAttendanceStatus (some r.status) with
  | none => s
  | some .present => { s with total := s.total + 1, present := s.present + 1 }
  | some .late => { s with total := s.total + 1, late := s.late + 1 }
  | some .absent => { s with total := s.total + 1, absent := s.absent + 1 }

/-- `calculateAttendanceStats` of `attendanceUtils.ts`: count recognized
records, then `rate = percentage = Math.round(weighted / total * 100)` with
weights present = 1, late = 0.75, absent = 0; both zero-record branches
return all-zero stats. -/
def calculateAttendanceStats (records : List AttendanceRecord) : AttendanceStats :=
  if records.isEmpty then
    ⟨0, 0, 0, 0, 0, 0⟩
  else
    let c := records.foldl countStep ⟨0, 0, 0, 0⟩
    if c.total = 0 then
      ⟨c.total, c.present, c.late, c.absent, 0, 0⟩
    else
      let weightedScore : ℚ := c.present * 1 + c.late * (3 / 4) + c.absent * 0
      let percentage := jsRound (weightedScore / c.total * 100)
      ⟨c.total, c.present, c.late, c.absent, percentage, percentage⟩

/-- A record is recognized when its raw status normalizes. -/
def recognized (r : AttendanceRecord) : Bool :=
  (normalizeAttendanceStatus (some r.status)).isSome

/-- A record is recognized as status `v`. -/
def recognizedAs (v : NormalizedStatus) (r : AttendanceRecord) : Bool :=
  normalizeAttendanceStatus (some r.status) = some v

/-- The specification's synonym table, written as membership in the three
synonym lists the specification gives for `present`, `late` and `absent`. -/
def specStatusTable (s : String) : Option NormalizedStatus :=
  if s ∈ ["present", "attended", "on-time", "ontime", "p", "1", "true"] then some .present
  else if s ∈ ["late", "tardy", "l"] then some .late
  else if s ∈ ["absent", "missed", "excused", "a", "0", "false"] then some .absent
  else none

/-- The specification's contract for the status normalizer: trim and
lower-case the string representation, return `null` for null/empty input,
otherwise consult the synonym table. -/
def specNormalizeStatus : Option String → Option NormalizedStatus
  | none => none
  | some s =>
    let n := jsToLower (jsTrim s)
    if n = "" then none else specStatusTable n

/-- The specification's four-record example: present, present, late, absent. -/
def exampleRecords : List AttendanceRecord :=
  [⟨"a1", "s1", some "C1", "l1", "Math", "2024-01-01", "present"⟩,
   ⟨"a2", "s2", some "C1", "l1", "Math", "2024-01-01", "present"⟩,
   ⟨"a3", "s3", some "C1", "l1", "Math", "2024-01-01", "late"⟩,
   ⟨"a4", "s4", some "C1", "l1", "Math", "2024-01-01", "absent"⟩]

/-- A record whose status string is gibberish. -/
def badRecord : AttendanceRecord :=
  ⟨"a9", "s9", some "C1", "l1", "Math", "2024-01-02", "???"⟩

/-! ## Finance (`src/lib/store.ts`) -/

structure Finance where
  id : String
  studentId : String
  totalFee : ℚ
  scholarship : ℚ
  paid : ℚ
  due : ℚ
  semester : String
deriving DecidableEq, Repr

/-- `payFee` of `store.ts` restricted to the record it mutates: apply at most
the outstanding amount, then recompute `due` clamped at zero. -/
def payFee (fin : Finance) (amount : ℚ) : Finance :=
  let applied := min amount fin.due
  let paid := fin.paid + applied
  let due := max 0 (fin.totalFee - fin.scholarship - paid)
  { fin with paid := paid, due := due }

/-! ## Department bucketing (`AdminDashboard.tsx`, `AdminReports.tsx`) -/

/-- ASCII upper-casing of one character. -/
def asciiToUpper (c : Char) : Char :=
  if 'a' ≤ c ∧ c ≤ 'z' then Char.ofNat (c.toNat - 32) else c

/-- JS `String.prototype.toUpperCase` (ASCII fragment). -/
def jsToUpper (s : String) : String := ⟨s.data.map asciiToUpper⟩

/-- `AdminDashboard.tsx`: `course.code.slice(0, 2)` — the department key is
the first two characters of the code, verbatim. -/
def adminDashboardDeptKey (code : String) : String := ⟨code.data.take 2⟩

/-- `AdminReports.tsx`:
`(course.code?.replace(/[^A-Za-z].*/, '') || 'GEN').toUpperCase()` — the
regex erases everything from the first non-letter on, leaving the maximal
leading run of ASCII letters, `'GEN'` when that is empty, upper-cased. -/
def adminReportsDeptKey (code : String) : String :=
  let letters : String := ⟨code.data.takeWhile Char.isAlpha⟩
  jsToUpper (if letters = "" then "GEN" else letters)

/-! ## IEEE-754 special values (`StudentResults.tsx`) -/

/-- A JS number as the division sites can produce it: a finite value, `NaN`,
or a signed infinity. -/
inductive JSNum where
  | num (q : ℚ)
  | nan
  | inf
  | negInf
deriving DecidableEq, Repr

/-- JS `+` on numbers. -/
def jsAdd : JSNum → JSNum → JSNum
  | .num a, .num b => .num (a + b)
  | .nan, _ => .nan
  | _, .nan => .nan
  | .inf, .negInf => .nan
  | .negInf, .inf => .nan
  | .inf, _ => .inf
  | _, .inf => .inf
  | .negInf, _ => .negInf
  | _, .negInf => .negInf

/-- JS `*` on numbers. -/
def jsMul : JSNum → JSNum → JSNum
  | .num a, .num b => .num (a * b)
  | .nan, _ => .nan
  | _, .nan => .nan
  | .inf, .num b => if b = 0 then .nan else if 0 < b then .inf else .negInf
  | .num a, .inf => if a = 0 then .nan else if 0 < a then .inf else .negInf
  | .negInf, .num b => if b = 0 then .nan else if 0 < b then .negInf else .inf
  | .num a, .negInf => if a = 0 then .nan else if 0 < a then .negInf else .inf
  | .inf, .inf => .inf
  | .inf, .negInf => .negInf
  | .negInf, .inf => .negInf
  | .negInf, .negInf => .inf

/-- JS `/` on numbers: `0/0` is `NaN`, `x/0` is a signed infinity. -/
def jsDiv : JSNum → JSNum → JSNum
  | .num a, .num b =>
    if b = 0 then (if a = 0 then .nan else if 0 < a then .inf else .negInf)
    else .num (a / b)
  | .nan, _ => .nan
  | _, .nan => .nan
  | .inf, .num _ => .inf
  | .negInf, .num _ => .negInf
  | .num _, .inf => .num 0
  | .num _, .negInf => .num 0
  | _, _ => .nan

/-! ## Grade rows and the average-of-percentages mode -/

structure Grade where
  id : String
  studentId : String
  courseId : String
  courseName : String
  examType : String
  score : ℚ
  maxScore : ℚ
  date : String
deriving DecidableEq, Repr

/-- `averageScore` of `StudentResults.tsx`: the per-student average of
`score / maxScore * 100` over the individual grades, with **no** guard on
`maxScore` — computed in JS number semantics. -/
def averageScore (grades : List Grade) : JSNum :=
  if grades.isEmpty then .num 0
  else
    jsDiv
      (grades.foldl
        (fun sum g => jsAdd sum (jsMul (jsDiv (.num g.score) (.num g.maxScore)) (.num 100)))
        (.num 0))
      (.num grades.length)

/-- A grade row whose `maxScore` is zero (and score zero). -/
def zeroMaxGrade : Grade := ⟨"g1", "s1", "c1", "Math", "quiz", 0, 0, "2024-01-01"⟩

/-! ## Roster Identifier Normalizer (`src/lib/rosterUtils.ts`) -/

/-- A JSON/JS value as `JSON.parse` can produce it (object fields are not
inspected by this code, so objects are a single constructor). -/
inductive JSVal where
  | str (s : String)
  | num (n : ℤ)
  | bool (b : Bool)
  | null
  | arr (vs : List JSVal)
  | obj

mutual

/-- JS template-literal stringification `` `${value}` ``. -/
def jsValToString : JSVal → String
  | .str s => s
  | .num n => toString n
  | .bool b => if b then "true" else "false"
  | .null => "null"
  | .obj => "[object Object]"
  | .arr vs => jsArrToString vs

/-- JS array stringification: elements joined by commas, nested `null`
elements rendered empty. -/
def jsArrToString : List JSVal → String
  | [] => ""
  | [.null] => ""
  | [v] => jsValToString v
  | .null :: rest => "," ++ jsArrToString rest
  | v :: rest => jsValToString v ++ "," ++ jsArrToString rest

end

/-- JS `String.prototype.split` with a single-character separator. -/
def splitOnChar (sep : Char) : List Char → List (List Char)
  | [] => [[]]
  | c :: rest =>
    if c = sep then [] :: splitOnChar sep rest
    else
      match splitOnChar sep rest with
      | [] => [[c]]
      | grp :: grps => (c :: grp) :: grps

/-- JS `s.split(sep)` for a one-character separator. -/
def jsSplit (sep : Char) (s : String) : List String :=
  (splitOnChar sep s.data).map fun cs => ⟨cs⟩

/-- The regex `/[\[\]\{\}"]/g` replacement with `''`: erase every bracket,
brace and double-quote character. -/
def stripRosterNoise (piece : String) : String :=
  ⟨piece.data.filter fun c => c ∉ ['[', ']', '{', '}', '\"']⟩

/-- The runtime shapes the `studentIds` column arrives in: an already-parsed
array, a serialized string, or anything else. -/
inductive RosterInput where
  | arr (vs : List JSVal)
  | str (s : String)
  | other

/-- `normalizeStudentIds` of `rosterUtils.ts`.  `jsonParse` is the external
`JSON.parse` primitive, `none` modelling a parse exception (so a total
`jsonParse` makes the whole function total: it never raises). -/
def normalizeStudentIds (jsonParse : String → Option JSVal) : RosterInput → List String
  | .arr vs =>
    (vs.map fun v => jsTrim (jsValToString v)).filter fun s => 0 < s.length
  | .str s =>
    let trimmed := jsTrim s
    if trimmed = "" then []
    else
      match jsonParse trimmed with
      | some (.arr vs) =>
        (vs.map fun v => jsTrim (jsValToString v)).filter fun s => 0 < s.length
      | _ =>
        ((jsSplit ',' trimmed).map fun p => jsTrim (stripRosterNoise p)).filter
          fun s => 0 < s.length
  | .other => []

/-- The specification's array stage: stringify each element, trim, drop
empty strings, preserve order, no dedup. -/
def specArrayStage (vs : List JSVal) : List String :=
  ((vs.map jsValToString).map jsTrim).filter fun s => s ≠ ""

/-- The specification's fallback stage: split on commas, strip
`[ ] { } "` from each piece, trim, drop empties. -/
def specFallbackStage (t : String) : List String :=
  ((jsSplit ',' t).map fun p => jsTrim (stripRosterNoise p)).filter fun s => s ≠ ""

/-- The specification's staged parse: array input goes through the array
stage; string input is trimmed and JSON-parsed first, an array result goes
through the array stage, any other outcome through the fallback stage; any
other input type yields `[]`. -/
def specStagedParse (jsonParse : String → Option JSVal) : RosterInput → List String
  | .arr vs => specArrayStage vs
  | .str s =>
    match jsonParse (jsTrim s) with
    | some (.arr vs) => specArrayStage vs
    | _ => specFallbackStage (jsTrim s)
  | .other => []

/-- A `JSON.parse` oracle that always fails. -/
def jsonParseNone : String → Option JSVal := fun _ => none

/-! ## Insertion-ordered association lists

JS objects and `Map`s keep keys in first-insertion order and update values
in place; both are modelled by association lists with an in-place `set`.
`dedupFirstAux`/`dedupFirst` model a JS `Set` built by insertion
(first-occurrence order). -/
variable {α : Type _}

def assocFind (l : List (String × α)) (k : String) : Option α :=
  (l.find? fun p => p.1 = k).map (·.2)

def assocHas (l : List (String × α)) (k : String) : Bool :=
  (assocFind l k).isSome

def assocSet (l : List (String × α)) (k : String) (v : α) : List (String × α) :=
  if l.any fun p => p.1 = k then l.map fun p => if p.1 = k then (k, v) else p
  else l ++ [(k, v)]

def dedupFirstAux (seen : List String) : List String → List String
  | [] => []
  | x :: xs => if x ∈ seen then dedupFirstAux seen xs else x :: dedupFirstAux (x :: seen) xs

def dedupFirst (l : List String) : List String := dedupFirstAux [] l

def appendIfNew (acc : List String) (i : String) : List String :=
  if i ∈ acc then acc else acc ++ [i]

/-! ## Roster Reconciliation Engine (`TeacherAttendance.tsx`) -/

/-- A course after its `studentIds` column has been normalized on read. -/
structure Course where
  id : String
  name : String
  code : String
  teacherId : String
  teacherName : String
  credits : ℚ
  schedule : String
  studentIds : List String
deriving DecidableEq, Repr

/-- A student profile (the constant `role: 'student'` tag is omitted). -/
structure Student where
  id : String
  name : String
  email : String
  gradeLevel : String
  gpa : ℚ
  attendance : ℚ
  parentId : Option String
deriving DecidableEq, Repr

/-- Seeding pass: `rosterEntries[course.id] = [...course.studentIds]`. -/
def seedEntries (courses : List Course) : List (String × List String) :=
  courses.foldl (fun acc c => assocSet acc c.id c.studentIds) []

/-- Course resolution of one dependent record against the current entry
table: a truthy `courseId` that is a known key wins, otherwise the first
known course with the record's `courseName`. -/
def resolveByEntries (courses : List Course) (entries : List (String × List String))
    (r : AttendanceRecord) : Option String :=
  match r.courseId with
  | some cid =>
    if cid ≠ "" ∧ assocHas entries cid then some cid
    else (courses.find? fun c => c.name = r.courseName).map (·.id)
  | none => (courses.find? fun c => c.name = r.courseName).map (·.id)

/-- One record of the reconciliation loop of `loadAttendanceData`: resolve
the course, materialize its entry if missing, append the record's student id
if not already present. -/
def attendanceRecordStep (courses : List Course)
    (entries : List (String × List String)) (r : AttendanceRecord) :
    List (String × List String) :=
  match resolveByEntries courses entries r with
  | none => entries
  | some cid =>
    let entries1 := if assocHas entries cid then entries else assocSet entries cid []
    let ids := (assocFind entries1 cid).getD []
    if r.studentId ∈ ids then entries1 else assocSet entries1 cid (ids ++ [r.studentId])

/-- The per-course id table after both passes. -/
def rosterEntriesAfter (courses : List Course) (records : List AttendanceRecord) :
    List (String × List String) :=
  records.foldl (attendanceRecordStep courses) (seedEntries courses)

/-- `new Map(students.map(s => [s.id, s])).get(id)`: the last profile wins. -/
def studentLookup (students : List Student) (id : String) : Option Student :=
  students.reverse.find? fun s => s.id = id

/-- Final roster map: per course, filter out falsy ids, dedup preserving
first occurrence (declared ids first), resolve to profiles, drop
unresolvable ids. -/
def courseRosters (courses : List Course) (records : List AttendanceRecord)
    (students : List Student) : List (String × List Student) :=
  (rosterEntriesAfter courses records).map fun p =>
    (p.1, (dedupFirst (p.2.filter fun i => i ≠ "")).filterMap (studentLookup students))

/-- Course resolution as the specification words it, independent of the
entry-table state: a truthy `courseId` matching a known course id wins,
otherwise the first known course with the record's `courseName`. -/
def resolveRecordCourse (courses : List Course) (r : AttendanceRecord) : Option String :=
  match r.courseId with
  | some cid =>
    if cid ≠ "" ∧ courses.any fun c => c.id = cid then some cid
    else (courses.find? fun c => c.name = r.courseName).map (·.id)
  | none => (courses.find? fun c => c.name = r.courseName).map (·.id)

/-- The student ids observed in dependent records resolving to course
`cid`, in record order. -/
def observedStudentIds (courses : List Course) (records : List AttendanceRecord)
    (cid : String) : List String :=
  (records.filter fun r => resolveRecordCourse courses r = some cid).map (·.studentId)

/-- The concrete course of the specification's reconciliation example. -/
def exCourse : Course := ⟨"C1", "Algebra", "MATH1", "t1", "Mr. T", 3, "MWF", ["s1"]⟩

/-- Student profile for `s1`. -/
def exStudent1 : Student := ⟨"s1", "Ann", "ann@x", "10", 0, 0, none⟩

/-- Student profile for `s2`. -/
def exStudent2 : Student := ⟨"s2", "Ben", "ben@x", "10", 0, 0, none⟩

/-- The attendance record `{courseId: "C1", studentId: "s2"}`. -/
def exObservedRecord : AttendanceRecord :=
  ⟨"a1", "s2", some "C1", "l1", "Algebra", "2024-01-01", "present"⟩

/-! ## Grade Aggregation Engine, sum-of-points mode (`AdminClasses`) -/

/-- The `Map` key `` `${grade.studentId}|${grade.courseId}` ``. -/
def gradeKey (g : Grade) : String := g.studentId ++ "|" ++ g.courseId

/-- One grade of the aggregation loop: materialize the bucket at the key if
missing, then add `score` to its running total and `maxScore` to its running
max (the bucket's `courseName` bookkeeping does not affect the numbers and
is omitted). -/
def aggStep (m : List (String × (ℚ × ℚ))) (g : Grade) : List (String × (ℚ × ℚ)) :=
  let key := gradeKey g
  let m1 := if assocHas m key then m else assocSet m key (0, 0)
  let bucket := (assocFind m1 key).getD (0, 0)
  assocSet m1 key (bucket.1 + g.score, bucket.2 + g.maxScore)

/-- The aggregation `Map` after the whole pass. -/
def aggregateGrades (grades : List Grade) : List (String × (ℚ × ℚ)) :=
  grades.foldl aggStep []

/-- One compiled output row (student/course placed back by splitting the
key on `'|'`; the profile/fallback decoration is presentation only). -/
structure GradeRow where
  studentId : String
  courseId : String
  cumulative : ℤ
deriving DecidableEq, Repr

/-- The compiled rows: per bucket,
`cumulative = bucket.max ? Math.round(bucket.total / bucket.max * 100) : 0`. -/
def compiledGradeRows (grades : List Grade) : List GradeRow :=
  (aggregateGrades grades).map fun p =>
    ⟨(jsSplit '|' p.1).headD "",
     ((jsSplit '|' p.1).drop 1).headD "",
     if p.2.2 ≠ 0 then jsRound (p.2.1 / p.2.2 * 100) else 0⟩

/-- Σ score over the grades of one `(studentId, courseId)` pair. -/
def sumScoreFor (grades : List Grade) (sid cid : String) : ℚ :=
  ((grades.filter fun g => g.studentId = sid ∧ g.courseId = cid).map (·.score)).sum

/-- Σ maxScore over the grades of one `(studentId, courseId)` pair. -/
def sumMaxFor (grades : List Grade) (sid cid : String) : ℚ :=
  ((grades.filter fun g => g.studentId = sid ∧ g.courseId = cid).map (·.maxScore)).sum

/-- Σ score over the grades sharing one aggregation key. -/
def sumScoreKey (grades : List Grade) (k : String) : ℚ :=
  ((grades.filter fun g => gradeKey g = k).map (·.score)).sum

/-- Σ maxScore over the grades sharing one aggregation key. -/
def sumMaxKey (grades : List Grade) (k : String) : ℚ :=
  ((grades.filter fun g => gradeKey g = k).map (·.maxScore)).sum

/-- First example grade with a `'|'` in its student id. -/
def pipeGrade1 : Grade := ⟨"g1", "a|b", "c", "Algebra", "exam", 10, 10, "2024-01-01"⟩

/-- Second example grade: a different `(student, course)` pair whose joined
key collides with the first. -/
def pipeGrade2 : Grade := ⟨"g2", "a", "b|c", "Algebra", "exam", 40, 100, "2024-01-01"⟩

/-- The specification's two example grades: 10/10 and 40/100 for the same
student/course pair. -/
def exGrade1 : Grade := ⟨"g1", "s1", "c1", "Algebra", "quiz", 10, 10, "2024-01-01"⟩

/-- Companion to `exGrade1`. -/
def exGrade2 : Grade := ⟨"g2", "s1", "c1", "Algebra", "final", 40, 100, "2024-01-02"⟩

/-! ## Teacher-facing reconciliation (`TeacherStudents` in `Login.tsx`) -/

/-- One grade of the `TeacherStudents` roster pass: skip grades with falsy
`courseId` or `studentId`, materialize the course entry, append the student
id if new. -/
def loginGradeStep (acc : List (String × List String)) (g : Grade) :
    List (String × List String) :=
  if g.courseId = "" ∨ g.studentId = "" then acc
  else
    let acc1 := if assocHas acc g.courseId then acc else assocSet acc g.courseId []
    let ids := (assocFind acc1 g.courseId).getD []
    if g.studentId ∈ ids then acc1 else assocSet acc1 g.courseId (ids ++ [g.studentId])

/-- Roster id table of `TeacherStudents.loadData`: seeded from the courses'
declared rosters, then extended by the fetched grade rows. -/
def loginRosterEntries (courses : List Course) (grades : List Grade) :
    List (String × List String) :=
  grades.foldl loginGradeStep (seedEntries courses)

/-- `rosterStudentMap`: ids resolved to profiles, unresolvable ids dropped
(this view does not dedup ids — the later `Map` pass dedups students). -/
def loginRosterStudentMap (courses : List Course) (grades : List Grade)
    (students : List Student) : List (String × List Student) :=
  (loginRosterEntries courses grades).map fun p =>
    (p.1, p.2.filterMap (studentLookup students))

/-- `new Map(pairs)`: insert every pair in order. -/
def jsMapOfPairs {α : Type _} (pairs : List (String × α)) : List (String × α) :=
  pairs.foldl (fun m p => assocSet m p.1 p.2) []

/-- The flattened roster lists (`Object.values(rosterStudentMap).flat()`). -/
def flatRosterStudents (courses : List Course) (grades : List Grade)
    (students : List Student) : List Student :=
  ((loginRosterStudentMap courses grades students).map (·.2)).flatten

/-- The deduplicated "my students" list over a given course list:
`Array.from(new Map(flat.map(s => [s.id, s])).values())`. -/
def myStudentsOver (courses : List Course) (grades : List Grade)
    (students : List Student) : List Student :=
  (jsMapOfPairs ((flatRosterStudents courses grades students).map
    fun s => (s.id, s))).map (·.2)

/-- `TeacherStudents.loadData`, teacher branch: restrict to the courses the
teacher owns, falling back to **all** courses when none is owned, then
reconcile. -/
def teacherStudentsLoad (tid : String) (courses : List Course) (grades : List Grade)
    (students : List Student) : List Student :=
  let owned := courses.filter fun c => c.teacherId = tid
  let effective := if owned.isEmpty then courses else owned
  myStudentsOver effective grades students

/-! ## Theorems -/

theorem statusMap_eq_specTable (s : String) : STATUS_MAP s = specStatusTable s := by
  unfold STATUS_MAP
  split <;> simp_all [specStatusTable]

/-- C7: for every raw status input, `normalizeAttendanceStatus` behaves
exactly as the specification's synonym-table contract: it trims and
lower-cases the string representation, maps synonym-table entries to their
canonical value, and returns `null` for any other non-empty string as well
as for null and empty/whitespace-only input. -/
theorem normalizeStatus_spec (raw : Option String) :
    normalizeAttendanceStatus raw = specNormalizeStatus raw := by
  cases raw with
  | none => rfl
  | some s =>
    simp only [normalizeAttendanceStatus, specNormalizeStatus]
    exact if h : jsToLower (jsTrim s) = "" then by simp [h]
      else by simp [h, statusMap_eq_specTable]

theorem foldl_countStep (records : List AttendanceRecord) (s : AttendanceCounts) :
    records.foldl countStep s =
      ⟨s.total + records.countP recognized,
       s.present + records.countP (recognizedAs .present),
       s.late + records.countP (recognizedAs .late),
       s.absent + records.countP (recognizedAs .absent)⟩ := by
  induction records generalizing s with
  | nil => simp
  | cons r rest ih =>
    rw [List.foldl_cons, ih]
    rcases h : normalizeAttendanceStatus (some r.status) with _ | v
    · simp [countStep, h, List.countP_cons, recognized, recognizedAs]
    · cases v <;>
        simp [countStep, h, List.countP_cons, recognized, recognizedAs] <;> omega

theorem calculateAttendanceStats_eq (records : List AttendanceRecord)
    (h : records.countP recognized ≠ 0) :
    calculateAttendanceStats records =
      ⟨records.countP recognized,
       records.countP (recognizedAs .present),
       records.countP (recognizedAs .late),
       records.countP (recognizedAs .absent),
       jsRound (((records.countP (recognizedAs .present) : ℚ) * 1 +
           (records.countP (recognizedAs .late) : ℚ) * (3 / 4) +
           (records.countP (recognizedAs .absent) : ℚ) * 0) /
         (records.countP recognized : ℚ) * 100),
       jsRound (((records.countP (recognizedAs .present) : ℚ) * 1 +
           (records.countP (recognizedAs .late) : ℚ) * (3 / 4) +
           (records.countP (recognizedAs .absent) : ℚ) * 0) /
         (records.countP recognized : ℚ) * 100)⟩ := by
  rcases records with _ | ⟨r, rest⟩
  · simp at h
  · simp only [calculateAttendanceStats, List.isEmpty_cons, Bool.false_eq_true, if_false,
      foldl_countStep, Nat.zero_add]
    split
    · simp_all
    · rfl

/-- C1: whenever at least one record's status normalizes, the reported
`rate` is the nearest-integer rounding (JS `Math.round`) of
`(present*1 + late*0.75 + absent*0) / total * 100`, where the four counters
count exactly the normalizable records of the input. -/
theorem calculateAttendanceStats_rate_spec (records : List AttendanceRecord)
    (h : ∃ r ∈ records, recognized r) :
    (calculateAttendanceStats records).total = records.countP recognized ∧
    (calculateAttendanceStats records).present = records.countP (recognizedAs .present) ∧
    (calculateAttendanceStats records).late = records.countP (recognizedAs .late) ∧
    (calculateAttendanceStats records).absent = records.countP (recognizedAs .absent) ∧
    (calculateAttendanceStats records).rate =
      jsRound ((((calculateAttendanceStats records).present : ℚ) * 1 +
          ((calculateAttendanceStats records).late : ℚ) * (3 / 4) +
          ((calculateAttendanceStats records).absent : ℚ) * 0) /
        ((calculateAttendanceStats records).total : ℚ) * 100) := by
  obtain ⟨r, hr, hrec⟩ := h
  have hpos : 0 < records.countP recognized := List.countP_pos_iff.mpr ⟨r, hr, hrec⟩
  rw [calculateAttendanceStats_eq records (Nat.pos_iff_ne_zero.mp hpos)]
  exact ⟨rfl, rfl, rfl, rfl, rfl⟩

theorem calculateAttendanceStats_rate_spec_witness :
    (∃ r ∈ exampleRecords, recognized r) ∧
    (calculateAttendanceStats exampleRecords).total = 4 ∧
    (calculateAttendanceStats exampleRecords).present = 2 ∧
    (calculateAttendanceStats exampleRecords).late = 1 ∧
    (calculateAttendanceStats exampleRecords).absent = 1 ∧
    (calculateAttendanceStats exampleRecords).rate = 69 := by
  obtain ⟨h1, h2, h3, h4, h5⟩ :=
    calculateAttendanceStats_rate_spec exampleRecords (by decide)
  rw [h1, h2, h3, h4] at h5 ⊢
  refine ⟨by decide, by decide, by decide, by decide, by decide, ?_⟩
  have e1 : exampleRecords.countP recognized = 4 := by decide
  have e2 : exampleRecords.countP (recognizedAs .present) = 2 := by decide
  have e3 : exampleRecords.countP (recognizedAs .late) = 1 := by decide
  have e4 : exampleRecords.countP (recognizedAs .absent) = 1 := by decide
  rw [e1, e2, e3, e4] at h5
  rw [h5]
  norm_num [jsRound]

/-- C8: records whose status fails normalization are skipped from every
counter (the counters count exactly the normalizable records), and when the
input is empty or no record normalizes the result is exactly
`{total := 0, present := 0, late := 0, absent := 0, rate := 0}` — the
weighted-rate division is never reached, so nothing divides by zero. -/
theorem calculateAttendanceStats_skips_unrecognized (records : List AttendanceRecord) :
    ((calculateAttendanceStats records).total = records.countP recognized ∧
     (calculateAttendanceStats records).present = records.countP (recognizedAs .present) ∧
     (calculateAttendanceStats records).late = records.countP (recognizedAs .late) ∧
     (calculateAttendanceStats records).absent = records.countP (recognizedAs .absent)) ∧
    ((∀ r ∈ records, ¬ recognized r) →
      calculateAttendanceStats records = ⟨0, 0, 0, 0, 0, 0⟩) := by
  have hcounts : ∀ rs : List AttendanceRecord,
      rs ≠ [] → calculateAttendanceStats rs =
        (if h : rs.countP recognized = 0 then
          ⟨rs.countP recognized, rs.countP (recognizedAs .present),
           rs.countP (recognizedAs .late), rs.countP (recognizedAs .absent), 0, 0⟩
        else calculateAttendanceStats rs) := by
    intro rs hne
    split
    · rcases rs with _ | ⟨r, rest⟩
      · simp at hne
      · simp only [calculateAttendanceStats, List.isEmpty_cons, Bool.false_eq_true, if_false,
          foldl_countStep, Nat.zero_add]
        split <;> simp_all
    · rfl
  constructor
  · rcases records with _ | ⟨r, rest⟩
    · simp [calculateAttendanceStats]
    · by_cases h0 : (r :: rest).countP recognized = 0
      · rw [hcounts (r :: rest) (by simp)]
        simp [h0]
      · rw [calculateAttendanceStats_eq _ h0]
        exact ⟨rfl, rfl, rfl, rfl⟩
  · intro hall
    have h0 : records.countP recognized = 0 := by
      rw [List.countP_eq_zero]
      intro r hr
      exact fun hb => hall r hr hb
    have hA : ∀ v, records.countP (recognizedAs v) = 0 := by
      intro v
      rw [List.countP_eq_zero]
      intro r hr hb
      exact hall r hr (by
        simp only [recognized, recognizedAs, decide_eq_true_eq] at hb ⊢
        simp [hb])
    rcases records with _ | ⟨r, rest⟩
    · simp [calculateAttendanceStats]
    · rw [hcounts (r :: rest) (by simp)]
      simp [h0, hA]

theorem calculateAttendanceStats_skips_unrecognized_witness :
    (∀ r ∈ [badRecord], ¬ recognized r) ∧
    calculateAttendanceStats [badRecord] = ⟨0, 0, 0, 0, 0, 0⟩ :=
  ⟨by decide, (calculateAttendanceStats_skips_unrecognized [badRecord]).2 (by decide)⟩

/-- C9: after `payFee` completes, the updated record satisfies
`due = max 0 (totalFee - scholarship - paid)` (with `totalFee` and
`scholarship` untouched by the payment), for every starting record and every
payment amount. -/
theorem payFee_due_invariant (fin : Finance) (amount : ℚ) :
    (payFee fin amount).due =
      max 0 ((payFee fin amount).totalFee - (payFee fin amount).scholarship -
        (payFee fin amount).paid) ∧
    (payFee fin amount).totalFee = fin.totalFee ∧
    (payFee fin amount).scholarship = fin.scholarship :=
  ⟨rfl, rfl, rfl⟩

/-- C5 counterexample: `AdminDashboard` does not upper-case its key — a
course coded `"cs101"` buckets under `"cs"`, not `"CS"`, so two codes
differing only in case land in different buckets; and `AdminReports` keys by
the whole leading letter run, so `"MATH204"` buckets under `"MATH"`, not the
first-two-characters key `"MA"`. -/
theorem deptKey_counterexample :
    adminDashboardDeptKey "cs101" = "cs" ∧
    adminDashboardDeptKey "cs101" ≠ "CS" ∧
    adminDashboardDeptKey "cs101" ≠ adminDashboardDeptKey "CS101" ∧
    adminReportsDeptKey "MATH204" = "MATH" ∧
    adminReportsDeptKey "MATH204" ≠ "MA" := by
  refine ⟨by decide, by decide, by decide, by decide, by decide⟩

/-- C5 (amended): `AdminDashboard` buckets by the first two characters of the
course code verbatim (case-sensitive, no upper-casing), while `AdminReports`
buckets by the maximal leading run of ASCII letters upper-cased (`"GEN"` when
the code starts with a non-letter or is empty); `"CS101"` buckets under
`"CS"` in both, and only the reports key is case-insensitive. -/
theorem deptKey_amended :
    adminDashboardDeptKey "CS101" = "CS" ∧
    adminReportsDeptKey "CS101" = "CS" ∧
    adminReportsDeptKey "cs101" = adminReportsDeptKey "CS101" ∧
    adminDashboardDeptKey "cs101" ≠ adminDashboardDeptKey "CS101" ∧
    adminReportsDeptKey "101" = "GEN" ∧
    adminReportsDeptKey "" = "GEN" := by
  refine ⟨by decide, by decide, by decide, by decide, by decide, by decide⟩

/-- C4: the average-of-percentages mode of `StudentResults.tsx` does **not**
guard its division: on a grade list containing a `0/0` grade it returns
`NaN` (not a real number, and not `0`), contradicting the specification's
failure semantics. -/
theorem averageScore_nan_on_zero_maxScore :
    averageScore [zeroMaxGrade] = JSNum.nan ∧ ∀ q : ℚ, JSNum.nan ≠ JSNum.num q := by
  refine ⟨by decide, fun q h => JSNum.noConfusion h⟩

theorem string_length_pos (s : String) : 0 < s.length ↔ s ≠ "" := by
  cases s with
  | mk data =>
    cases data <;> simp [String.length, String.ext_iff]

theorem filter_length_pos_eq_filter_ne_empty (l : List String) :
    (l.filter fun s => 0 < s.length) = l.filter fun s => s ≠ "" := by
  apply List.filter_congr
  intro s _
  simp [string_length_pos]

/-- C6: `normalizeStudentIds` implements the specification's staged parse
for every behaviour of the external `JSON.parse` primitive (constrained only
by strictness on the empty string, which `JSON.parse` rejects): array input
is stringified/trimmed/filtered in order without dedup, string input tries a
JSON-array parse and falls back to comma splitting with bracket/brace/quote
stripping, and any other input yields `[]`; being a total function, it never
raises. -/
theorem normalizeStudentIds_staged (jsonParse : String → Option JSVal)
    (hstrict : jsonParse "" = none) (input : RosterInput) :
    normalizeStudentIds jsonParse input = specStagedParse jsonParse input := by
  cases input with
  | arr vs =>
    simp [normalizeStudentIds, specStagedParse, specArrayStage,
      filter_length_pos_eq_filter_ne_empty, List.map_map, Function.comp_def]
  | str s =>
    simp only [normalizeStudentIds, specStagedParse]
    by_cases h : jsTrim s = ""
    · rw [h, hstrict]
      simp [h, specFallbackStage]
      decide
    · simp only [h, if_false]
      cases hp : jsonParse (jsTrim s) with
      | none =>
        simp [specFallbackStage, filter_length_pos_eq_filter_ne_empty]
      | some v =>
        cases v <;>
          simp [specFallbackStage, specArrayStage,
            filter_length_pos_eq_filter_ne_empty, List.map_map, Function.comp_def]
  | other => rfl

theorem normalizeStudentIds_staged_witness :
    jsonParseNone "" = none ∧
    normalizeStudentIds jsonParseNone (.str "a,b,c") =
      specStagedParse jsonParseNone (.str "a,b,c") ∧
    normalizeStudentIds jsonParseNone (.str "a,b,c") = ["a", "b", "c"] := by
  have h := normalizeStudentIds_staged jsonParseNone rfl (.str "a,b,c")
  exact ⟨rfl, h, by rw [h]; decide⟩

theorem find?_set_map (l : List (String × α)) (k : String) (v : α) :
    List.find? (fun p => p.1 = k) (l.map fun p => if p.1 = k then (k, v) else p) =
      (List.find? (fun p => p.1 = k) l).map fun _ => (k, v) := by
  induction l with
  | nil => rfl
  | cons p rest ih =>
    by_cases hp : p.1 = k <;> simp [List.find?_cons, hp, ih]

theorem find?_ne_set_map (l : List (String × α)) (k k' : String) (v : α) (h : k' ≠ k) :
    List.find? (fun p => p.1 = k') (l.map fun p => if p.1 = k then (k, v) else p) =
      List.find? (fun p => p.1 = k') l := by
  induction l with
  | nil => rfl
  | cons p rest ih =>
    by_cases hp : p.1 = k
    · have hk1 : ¬ p.1 = k' := by rw [hp]; exact fun hk => h hk.symm
      have hk2 : ¬ k = k' := fun hk => h hk.symm
      simp [List.find?_cons, hp, hk1, hk2, ih]
    · by_cases hp' : p.1 = k' <;> simp [List.find?_cons, hp, hp', h, ih]

theorem find?_append_single (l : List (String × α)) (q : String × α) (k : String) :
    List.find? (fun p => p.1 = k) (l ++ [q]) =
      ((List.find? (fun p => p.1 = k) l).or (if q.1 = k then some q else none)) := by
  induction l with
  | nil => by_cases hq : q.1 = k <;> simp [List.find?_cons, hq]
  | cons p rest ih =>
    by_cases hp : p.1 = k <;> simp [List.find?_cons, hp, ih]

theorem not_has_find?_none (l : List (String × α)) (k : String)
    (h : ¬ (l.any fun p => p.1 = k) = true) :
    List.find? (fun p => p.1 = k) l = none := by
  rw [List.find?_eq_none]
  intro p hp
  simp only [List.any_eq_true, not_exists, not_and] at h
  simp [h p hp]

theorem assocFind_assocSet_self (l : List (String × α)) (k : String) (v : α) :
    assocFind (assocSet l k v) k = some v := by
  rw [assocSet]
  split
  · next hany =>
    rw [assocFind, find?_set_map]
    obtain ⟨p, hp, hpk⟩ := List.any_eq_true.mp hany
    have hsome : (List.find? (fun p => decide (p.1 = k)) l).isSome :=
      List.find?_isSome.mpr ⟨p, hp, hpk⟩
    obtain ⟨q, hq⟩ := Option.isSome_iff_exists.mp hsome
    simp [hq]
  · next hany =>
    rw [assocFind, find?_append_single, not_has_find?_none l k hany]
    simp

theorem assocFind_assocSet_ne (l : List (String × α)) (k k' : String) (v : α)
    (h : k' ≠ k) : assocFind (assocSet l k v) k' = assocFind l k' := by
  rw [assocSet]
  split
  · rw [assocFind, find?_ne_set_map l k k' v h, assocFind]
  · have hk2 : ¬ k = k' := fun hk => h hk.symm
    rw [assocFind, find?_append_single, assocFind]
    simp [hk2]

theorem assocSet_keys_of_has (l : List (String × α)) (k : String) (v : α)
    (h : l.any fun p => p.1 = k) :
    (assocSet l k v).map (·.1) = l.map (·.1) := by
  rw [assocSet, if_pos h, List.map_map]
  apply List.map_congr_left
  intro p _
  by_cases hp : p.1 = k <;> simp [hp]

theorem assocHas_assocSet (l : List (String × α)) (k k' : String) (v : α) :
    assocHas (assocSet l k v) k' = (assocHas l k' || k' = k) := by
  by_cases h : k' = k
  · subst h
    simp [assocHas, assocFind_assocSet_self]
  · simp [assocHas, assocFind_assocSet_ne l k k' v h, h]

theorem assocHas_iff_exists (l : List (String × α)) (k : String) :
    assocHas l k ↔ ∃ p ∈ l, p.1 = k := by
  simp [assocHas, assocFind, List.find?_isSome]

theorem dedupFirstAux_congr (seen seen' : List String) (l : List String)
    (h : ∀ x, x ∈ seen ↔ x ∈ seen') :
    dedupFirstAux seen l = dedupFirstAux seen' l := by
  induction l generalizing seen seen' with
  | nil => rfl
  | cons y ys ih =>
    by_cases hy : y ∈ seen
    · rw [dedupFirstAux, dedupFirstAux, if_pos hy, if_pos ((h y).mp hy)]
      exact ih seen seen' h
    · rw [dedupFirstAux, dedupFirstAux, if_neg hy, if_neg (fun hm => hy ((h y).mpr hm))]
      refine congrArg _ (ih (y :: seen) (y :: seen') fun x => ?_)
      simp [h x]

theorem dedupFirstAux_irrel (x : String) (seen : List String) (l : List String)
    (h : x ∉ l) : dedupFirstAux (x :: seen) l = dedupFirstAux seen l := by
  induction l generalizing seen with
  | nil => rfl
  | cons y ys ih =>
    have hyx : ¬ y = x := fun he => h (he ▸ List.mem_cons_self y ys)
    have hys : x ∉ ys := fun hm => h (List.mem_cons_of_mem y hm)
    by_cases hy : y ∈ seen
    · rw [dedupFirstAux, dedupFirstAux, if_pos (List.mem_cons_of_mem x hy), if_pos hy]
      exact ih seen hys
    · have hny : y ∉ x :: seen := by simp [hyx, hy]
      rw [dedupFirstAux, dedupFirstAux, if_neg hny, if_neg hy]
      refine congrArg _ ?_
      calc dedupFirstAux (y :: x :: seen) ys
          = dedupFirstAux (x :: y :: seen) ys :=
            dedupFirstAux_congr _ _ ys (by intro z; simp; tauto)
        _ = dedupFirstAux (y :: seen) ys := ih (y :: seen) hys

theorem dedupFirstAux_filter (p : String → Bool) (seen : List String) (l : List String) :
    dedupFirstAux seen (l.filter p) = (dedupFirstAux seen l).filter p := by
  induction l generalizing seen with
  | nil => rfl
  | cons y ys ih =>
    by_cases hpy : p y
    · by_cases hy : y ∈ seen
      · rw [List.filter_cons_of_pos hpy, dedupFirstAux, dedupFirstAux,
          if_pos hy, if_pos hy, ih]
      · rw [List.filter_cons_of_pos hpy, dedupFirstAux, dedupFirstAux,
          if_neg hy, if_neg hy, List.filter_cons_of_pos hpy, ih]
    · rw [List.filter_cons_of_neg hpy]
      by_cases hy : y ∈ seen
      · rw [dedupFirstAux, if_pos hy, ih]
      · rw [dedupFirstAux, if_neg hy, List.filter_cons_of_neg hpy, ← ih,
          dedupFirstAux_irrel]
        intro hm
        exact hpy (List.of_mem_filter hm)

theorem dedupFirstAux_append_cons_mem (seen xs ids : List String) (i : String)
    (h : i ∈ xs ∨ i ∈ seen) :
    dedupFirstAux seen (xs ++ i :: ids) = dedupFirstAux seen (xs ++ ids) := by
  induction xs generalizing seen with
  | nil =>
    rcases h with h | h
    · exact absurd h (List.not_mem_nil i)
    · simp only [List.nil_append, dedupFirstAux, if_pos h]
  | cons x xs' ih =>
    by_cases hx : x ∈ seen
    · rw [List.cons_append, dedupFirstAux, if_pos hx, List.cons_append, dedupFirstAux,
        if_pos hx]
      refine ih seen ?_
      rcases h with h | h
      · rcases List.mem_cons.mp h with he | hm
        · exact Or.inr (he ▸ hx)
        · exact Or.inl hm
      · exact Or.inr h
    · rw [List.cons_append, dedupFirstAux, if_neg hx, List.cons_append, dedupFirstAux,
        if_neg hx]
      refine congrArg _ (ih (x :: seen) ?_)
      rcases h with h | h
      · rcases List.mem_cons.mp h with he | hm
        · exact Or.inr (he ▸ List.mem_cons_self x seen)
        · exact Or.inl hm
      · exact Or.inr (List.mem_cons_of_mem x h)

theorem dedupFirstAux_foldl_appendIfNew (seen xs ids : List String) :
    dedupFirstAux seen (ids.foldl appendIfNew xs) = dedupFirstAux seen (xs ++ ids) := by
  induction ids generalizing xs with
  | nil => simp
  | cons i ids' ih =>
    rw [List.foldl_cons, ih, appendIfNew]
    by_cases hi : i ∈ xs
    · rw [if_pos hi, dedupFirstAux_append_cons_mem seen xs ids' i (Or.inl hi)]
    · rw [if_neg hi, List.append_assoc, List.singleton_append]

theorem assocHas_eq_any (l : List (String × α)) (k : String) :
    assocHas l k = l.any fun p => p.1 = k := by
  rw [Bool.eq_iff_iff, assocHas_iff_exists, List.any_eq_true]
  simp

theorem assocSet_of_not_has (l : List (String × α)) (k : String) (v : α)
    (h : ¬ assocHas l k) : assocSet l k v = l ++ [(k, v)] := by
  rw [assocSet, if_neg]
  rw [assocHas_eq_any] at h
  simpa using h

theorem assocFind_append_of_none (l l' : List (String × α)) (k : String)
    (h : assocFind l k = none) : assocFind (l ++ l') k = assocFind l' k := by
  induction l with
  | nil => simp
  | cons p rest ih =>
    by_cases hp : p.1 = k
    · rw [assocFind, List.find?_cons_of_pos _ (by simpa using hp)] at h
      simp at h
    · rw [assocFind, List.find?_cons_of_neg _ (by simpa using hp)] at h
      rw [assocFind, List.cons_append, List.find?_cons_of_neg _ (by simpa using hp)]
      exact ih h

theorem seedEntries_has (courses : List Course) (k : String) :
    assocHas (seedEntries courses) k ↔ k ∈ courses.map (·.id) := by
  rw [seedEntries]
  suffices h : ∀ acc : List (String × List String),
      (assocHas (courses.foldl (fun acc c => assocSet acc c.id c.studentIds) acc) k ↔
        assocHas acc k ∨ k ∈ courses.map (·.id)) by
    rw [h []]
    simp [assocHas, assocFind]
  induction courses with
  | nil => simp
  | cons c rest ih =>
    intro acc
    rw [List.foldl_cons, ih (assocSet acc c.id c.studentIds), List.map_cons,
      assocHas_assocSet]
    simp only [Bool.or_eq_true, decide_eq_true_eq, List.mem_cons]
    tauto

theorem name_resolution_mem (courses : List Course) (n : String) (cid : String)
    (h : ((courses.find? fun c => c.name = n).map (·.id)) = some cid) :
    cid ∈ courses.map (·.id) := by
  obtain ⟨c, hc, hcid⟩ := Option.map_eq_some'.mp h
  exact hcid ▸ List.mem_map.mpr ⟨c, List.mem_of_find?_eq_some hc, rfl⟩

theorem resolveRecordCourse_mem (courses : List Course) (r : AttendanceRecord)
    (cid : String) (h : resolveRecordCourse courses r = some cid) :
    cid ∈ courses.map (·.id) := by
  obtain ⟨i, sid, cidOpt, lid, cname, date, status⟩ := r
  cases cidOpt with
  | none => exact name_resolution_mem courses cname cid (by simpa [resolveRecordCourse] using h)
  | some cid' =>
    simp only [resolveRecordCourse] at h
    split at h
    · next hcond =>
      obtain ⟨c, hc, hcid⟩ := List.any_eq_true.mp hcond.2
      cases h
      exact List.mem_map.mpr ⟨c, hc, by simpa using hcid⟩
    · exact name_resolution_mem courses cname cid h

theorem resolveByEntries_eq_static (courses : List Course)
    (entries : List (String × List String)) (r : AttendanceRecord)
    (hkeys : ∀ k, assocHas entries k ↔ k ∈ courses.map (·.id)) :
    resolveByEntries courses entries r = resolveRecordCourse courses r := by
  obtain ⟨i, sid, cidOpt, lid, cname, date, status⟩ := r
  cases cidOpt with
  | none => rfl
  | some cid =>
    simp only [resolveByEntries, resolveRecordCourse]
    have hc : (cid ≠ "" ∧ assocHas entries cid) ↔
        (cid ≠ "" ∧ courses.any fun c => c.id = cid) := by
      rw [hkeys cid]
      simp only [List.any_eq_true, List.mem_map, decide_eq_true_eq]
    by_cases hcid : cid ≠ "" ∧ assocHas entries cid
    · rw [if_pos hcid, if_pos (hc.mp hcid)]
    · rw [if_neg hcid, if_neg fun hx => hcid (hc.mpr hx)]

theorem attendanceRecordStep_has (courses : List Course)
    (entries : List (String × List String)) (r : AttendanceRecord)
    (hkeys : ∀ k, assocHas entries k ↔ k ∈ courses.map (·.id)) :
    ∀ k, assocHas (attendanceRecordStep courses entries r) k ↔
      k ∈ courses.map (·.id) := by
  intro k
  rcases hres : resolveByEntries courses entries r with _ | cid
  · simp only [attendanceRecordStep, hres]
    exact hkeys k
  · have hstatic : resolveRecordCourse courses r = some cid :=
      (resolveByEntries_eq_static courses entries r hkeys).symm.trans hres
    have hcid : cid ∈ courses.map (·.id) := resolveRecordCourse_mem courses r cid hstatic
    have hhas : assocHas entries cid := (hkeys cid).mpr hcid
    simp only [attendanceRecordStep, hres, if_pos hhas]
    split
    · exact hkeys k
    · rw [assocHas_assocSet]
      simp only [Bool.or_eq_true, decide_eq_true_eq]
      constructor
      · rintro (h | h)
        · exact (hkeys k).mp h
        · exact h ▸ hcid
      · intro h
        exact Or.inl ((hkeys k).mpr h)

theorem attendanceRecordStep_find (courses : List Course)
    (entries : List (String × List String)) (r : AttendanceRecord)
    (k : String) (ids : List String)
    (hkeys : ∀ k', assocHas entries k' ↔ k' ∈ courses.map (·.id))
    (hfind : assocFind entries k = some ids) :
    assocFind (attendanceRecordStep courses entries r) k =
      some (if resolveRecordCourse courses r = some k
        then appendIfNew ids r.studentId else ids) := by
  rcases hres : resolveByEntries courses entries r with _ | cid
  · have hstatic : resolveRecordCourse courses r = none :=
      (resolveByEntries_eq_static courses entries r hkeys).symm.trans hres
    simp only [attendanceRecordStep, hres, hstatic]
    rw [if_neg (by simp)]
    exact hfind
  · have hstatic : resolveRecordCourse courses r = some cid :=
      (resolveByEntries_eq_static courses entries r hkeys).symm.trans hres
    have hhas : assocHas entries cid :=
      (hkeys cid).mpr (resolveRecordCourse_mem courses r cid hstatic)
    simp only [attendanceRecordStep, hres, if_pos hhas, hstatic]
    by_cases hck : cid = k
    · subst hck
      rw [hfind, if_pos rfl, appendIfNew]
      simp only [Option.getD_some]
      by_cases hmem : r.studentId ∈ ids
      · rw [if_pos hmem, if_pos hmem]
        exact hfind
      · rw [if_neg hmem, if_neg hmem]
        exact assocFind_assocSet_self entries cid (ids ++ [r.studentId])
    · rw [if_neg fun h => hck (Option.some.inj h)]
      split
      · exact hfind
      · rw [assocFind_assocSet_ne _ _ _ _ fun h => hck h.symm]
        exact hfind

theorem observedStudentIds_cons (courses : List Course) (r : AttendanceRecord)
    (rest : List AttendanceRecord) (k : String) :
    observedStudentIds courses (r :: rest) k =
      (if resolveRecordCourse courses r = some k then [r.studentId] else []) ++
        observedStudentIds courses rest k := by
  rw [observedStudentIds, observedStudentIds, List.filter_cons]
  split
  · next h =>
    rw [if_pos (by simpa using h), List.map_cons, List.singleton_append]
  · next h =>
    rw [if_neg (by simpa using h), List.nil_append]

theorem foldl_attendanceRecordStep_find (courses : List Course)
    (records : List AttendanceRecord) (k : String) :
    ∀ (entries : List (String × List String)) (ids : List String),
      (∀ k', assocHas entries k' ↔ k' ∈ courses.map (·.id)) →
      assocFind entries k = some ids →
      assocFind (records.foldl (attendanceRecordStep courses) entries) k =
        some (List.foldl appendIfNew ids (observedStudentIds courses records k)) := by
  induction records with
  | nil =>
    intro entries ids _ hfind
    simpa [observedStudentIds] using hfind
  | cons r rest ih =>
    intro entries ids hkeys hfind
    rw [List.foldl_cons, observedStudentIds_cons]
    have hkeys' := attendanceRecordStep_has courses entries r hkeys
    have hfind' := attendanceRecordStep_find courses entries r k ids hkeys hfind
    by_cases hck : resolveRecordCourse courses r = some k
    · rw [if_pos hck] at hfind' ⊢
      rw [List.singleton_append, List.foldl_cons]
      exact ih (attendanceRecordStep courses entries r) (appendIfNew ids r.studentId)
        hkeys' hfind'
    · rw [if_neg hck] at hfind' ⊢
      rw [List.nil_append]
      exact ih (attendanceRecordStep courses entries r) ids hkeys' hfind'

theorem seedEntries_eq (courses : List Course)
    (hids : (courses.map (·.id)).Nodup) :
    seedEntries courses = courses.map fun c => (c.id, c.studentIds) := by
  rw [seedEntries]
  suffices h : ∀ (cs : List Course) (acc : List (String × List String)),
      (cs.map (·.id)).Nodup → (∀ c ∈ cs, ¬ assocHas acc c.id) →
      cs.foldl (fun acc c => assocSet acc c.id c.studentIds) acc =
        acc ++ cs.map fun c => (c.id, c.studentIds) by
    simpa using h courses [] hids (by simp [assocHas, assocFind])
  intro cs
  induction cs with
  | nil => simp
  | cons c rest ih =>
    intro acc hnodup hacc
    rw [List.map_cons, List.nodup_cons] at hnodup
    rw [List.foldl_cons, assocSet_of_not_has _ _ _ (hacc c (List.mem_cons_self c rest)),
      ih (acc ++ [(c.id, c.studentIds)]) hnodup.2 ?_, List.map_cons, List.append_assoc,
      List.singleton_append]
    intro c' hc'
    rw [assocHas_iff_exists]
    rintro ⟨p, hp, hpk⟩
    rcases List.mem_append.mp hp with hp | hp
    · exact hacc c' (List.mem_cons_of_mem c hc') ((assocHas_iff_exists acc c'.id).mpr ⟨p, hp, hpk⟩)
    · rw [List.mem_singleton] at hp
      subst hp
      simp only at hpk
      exact hnodup.1 (by rw [hpk]; exact List.mem_map.mpr ⟨c', hc', rfl⟩)

theorem assocFind_map_course (courses : List Course) (c : Course)
    (hids : (courses.map (·.id)).Nodup) (hc : c ∈ courses) :
    assocFind (courses.map fun c => (c.id, c.studentIds)) c.id = some c.studentIds := by
  induction courses with
  | nil => exact absurd hc (List.not_mem_nil c)
  | cons c' rest ih =>
    rw [List.map_cons, List.nodup_cons] at hids
    rcases List.mem_cons.mp hc with he | hm
    · subst he
      rw [List.map_cons, assocFind, List.find?_cons_of_pos _ (by simp)]
      rfl
    · have hne : c'.id ≠ c.id := fun h =>
        hids.1 (h ▸ List.mem_map.mpr ⟨c, hm, rfl⟩)
      rw [List.map_cons, assocFind, List.find?_cons_of_neg _ (by simpa using hne)]
      exact ih hids.2 hm

theorem assocFind_map_snd {β γ : Type _} (l : List (String × β)) (g : β → γ) (k : String) :
    assocFind (l.map fun p => (p.1, g p.2)) k = (assocFind l k).map g := by
  induction l with
  | nil => rfl
  | cons p rest ih =>
    by_cases hp : p.1 = k <;>
      simp [assocFind, List.find?_cons, hp, ih] <;>
      simpa [assocFind] using ih

/-- C3: under distinct course ids, the reconciled roster of each known
course is: its declared (normalized) roster, followed by the student ids of
the dependent records resolving to it (direct `courseId` match, else
`courseName` match), falsy ids dropped, deduplicated keeping first
occurrences (declared ids first), each id mapped to its resolved student
profile with unresolvable ids dropped. -/
theorem courseRosters_spec (courses : List Course) (records : List AttendanceRecord)
    (students : List Student) (hids : (courses.map (·.id)).Nodup) :
    ∀ c ∈ courses,
      assocFind (courseRosters courses records students) c.id =
        some ((dedupFirst ((c.studentIds ++ observedStudentIds courses records c.id).filter
          fun i => i ≠ "")).filterMap (studentLookup students)) := by
  intro c hc
  have hkeys : ∀ k, assocHas (seedEntries courses) k ↔ k ∈ courses.map (·.id) :=
    seedEntries_has courses
  have hfind : assocFind (seedEntries courses) c.id = some c.studentIds := by
    rw [seedEntries_eq courses hids]
    exact assocFind_map_course courses c hids hc
  have hg : assocFind (courseRosters courses records students) c.id =
      (assocFind (rosterEntriesAfter courses records) c.id).map
        fun ids => (dedupFirst (ids.filter fun i => i ≠ "")).filterMap
          (studentLookup students) :=
    assocFind_map_snd (rosterEntriesAfter courses records)
      (fun ids => (dedupFirst (ids.filter fun i => i ≠ "")).filterMap
        (studentLookup students)) c.id
  rw [hg, rosterEntriesAfter,
    foldl_attendanceRecordStep_find courses records c.id (seedEntries courses)
      c.studentIds hkeys hfind]
  rw [Option.map_some']
  refine congrArg some (congrArg (fun l => List.filterMap (studentLookup students) l) ?_)
  show dedupFirstAux [] ((List.foldl appendIfNew c.studentIds
      (observedStudentIds courses records c.id)).filter fun i => i ≠ "") = _
  rw [dedupFirstAux_filter, dedupFirstAux_foldl_appendIfNew, ← dedupFirstAux_filter]
  rfl

theorem courseRosters_spec_witness :
    ([exCourse].map (·.id)).Nodup ∧
    ((assocFind (courseRosters [exCourse] [exObservedRecord] [exStudent1, exStudent2])
      exCourse.id).getD []).map (·.id) = ["s1", "s2"] := by
  have h := courseRosters_spec [exCourse] [exObservedRecord] [exStudent1, exStudent2]
    (by decide) exCourse (List.mem_singleton.mpr rfl)
  refine ⟨by decide, ?_⟩
  rw [h]
  decide

theorem sumScoreKey_cons (g : Grade) (rest : List Grade) (k : String) :
    sumScoreKey (g :: rest) k =
      (if gradeKey g = k then g.score else 0) + sumScoreKey rest k := by
  rw [sumScoreKey, sumScoreKey, List.filter_cons]
  split
  · next h => rw [if_pos (by simpa using h), List.map_cons, List.sum_cons]
  · next h => rw [if_neg (by simpa using h), zero_add]

theorem sumMaxKey_cons (g : Grade) (rest : List Grade) (k : String) :
    sumMaxKey (g :: rest) k =
      (if gradeKey g = k then g.maxScore else 0) + sumMaxKey rest k := by
  rw [sumMaxKey, sumMaxKey, List.filter_cons]
  split
  · next h => rw [if_pos (by simpa using h), List.map_cons, List.sum_cons]
  · next h => rw [if_neg (by simpa using h), zero_add]

theorem aggStep_find_ne (m : List (String × (ℚ × ℚ))) (g : Grade) (k : String)
    (hk : ¬ gradeKey g = k) : assocFind (aggStep m g) k = assocFind m k := by
  have hne : k ≠ gradeKey g := fun h => hk h.symm
  simp only [aggStep]
  split
  · exact assocFind_assocSet_ne _ _ _ _ hne
  · rw [assocFind_assocSet_ne _ _ _ _ hne, assocFind_assocSet_ne _ _ _ _ hne]

theorem foldl_aggStep_some (grades : List Grade) (k : String) :
    ∀ (m : List (String × (ℚ × ℚ))) (b : ℚ × ℚ), assocFind m k = some b →
      assocFind (grades.foldl aggStep m) k =
        some (b.1 + sumScoreKey grades k, b.2 + sumMaxKey grades k) := by
  induction grades with
  | nil =>
    intro m b hb
    simpa [sumScoreKey, sumMaxKey] using hb
  | cons g rest ih =>
    intro m b hb
    rw [List.foldl_cons, sumScoreKey_cons, sumMaxKey_cons]
    by_cases hk : gradeKey g = k
    · have hhas : assocHas m (gradeKey g) = true := by
        rw [hk, assocHas, hb]
        rfl
      have hstep : assocFind (aggStep m g) k =
          some (b.1 + g.score, b.2 + g.maxScore) := by
        simp only [aggStep]
        rw [if_pos hhas, hk, hb, Option.getD_some]
        exact assocFind_assocSet_self m k _
      rw [ih (aggStep m g) _ hstep]
      simp only [if_pos hk]
      refine congrArg some ?_
      rw [Prod.mk.injEq]
      constructor <;> ring
    · have hstep : assocFind (aggStep m g) k = some b := by
        rw [aggStep_find_ne m g k hk]
        exact hb
      rw [ih (aggStep m g) b hstep]
      simp only [if_neg hk, zero_add]

theorem aggregateGrades_find (grades : List Grade) (k : String)
    (h : ∃ g ∈ grades, gradeKey g = k) :
    assocFind (aggregateGrades grades) k =
      some (sumScoreKey grades k, sumMaxKey grades k) := by
  rw [aggregateGrades]
  suffices hsuff : ∀ m : List (String × (ℚ × ℚ)), assocFind m k = none →
      (∃ g ∈ grades, gradeKey g = k) →
      assocFind (grades.foldl aggStep m) k =
        some (sumScoreKey grades k, sumMaxKey grades k) by
    exact hsuff [] rfl h
  clear h
  induction grades with
  | nil =>
    rintro m _ ⟨g, hg, _⟩
    exact absurd hg (List.not_mem_nil g)
  | cons g rest ih =>
    intro m hm hex
    rw [List.foldl_cons, sumScoreKey_cons, sumMaxKey_cons]
    by_cases hk : gradeKey g = k
    · have hnohas : ¬ assocHas m (gradeKey g) = true := by
        rw [hk, assocHas, hm]
        simp
      have hstep : assocFind (aggStep m g) k = some (0 + g.score, 0 + g.maxScore) := by
        simp only [aggStep]
        rw [if_neg hnohas, hk, assocFind_assocSet_self m k (0, 0), Option.getD_some]
        exact assocFind_assocSet_self _ k _
      rw [foldl_aggStep_some rest k (aggStep m g) _ hstep]
      simp only [if_pos hk]
      refine congrArg some ?_
      rw [Prod.mk.injEq]
      constructor <;> ring
    · have hstep : assocFind (aggStep m g) k = none := by
        rw [aggStep_find_ne m g k hk]
        exact hm
      obtain ⟨g', hg', hgk⟩ := hex
      rcases List.mem_cons.mp hg' with he | hm'
      · exact absurd (he ▸ hgk) hk
      · rw [ih (aggStep m g) hstep ⟨g', hm', hgk⟩]
        simp only [if_neg hk, zero_add]

theorem pipe_join_inj (a b c d : List Char) (ha : '|' ∉ a) (hc : '|' ∉ c)
    (h : a ++ '|' :: b = c ++ '|' :: d) : a = c ∧ b = d := by
  induction a generalizing c with
  | nil =>
    cases c with
    | nil => simpa using h
    | cons y c' =>
      rw [List.nil_append, List.cons_append] at h
      cases h
      exact absurd (List.mem_cons_self _ _) hc
  | cons x a' ih =>
    cases c with
    | nil =>
      rw [List.cons_append, List.nil_append] at h
      cases h
      exact absurd (List.mem_cons_self _ _) ha
    | cons y c' =>
      rw [List.cons_append, List.cons_append] at h
      obtain ⟨he, ht⟩ := List.cons.inj h
      obtain ⟨h1, h2⟩ := ih c' (fun hm => ha (List.mem_cons_of_mem x hm))
        (fun hm => hc (List.mem_cons_of_mem y hm)) ht
      exact ⟨by rw [he, h1], h2⟩

theorem string_pipe_join_inj (a b c d : String) (ha : '|' ∉ a.data)
    (hc : '|' ∉ c.data) (h : a ++ "|" ++ b = c ++ "|" ++ d) : a = c ∧ b = d := by
  rw [String.ext_iff, String.data_append, String.data_append, String.data_append,
    String.data_append] at h
  obtain ⟨h1, h2⟩ := pipe_join_inj a.data b.data c.data d.data ha hc (by simpa using h)
  exact ⟨String.ext h1, String.ext h2⟩

theorem splitOnChar_of_not_mem (sep : Char) (cs : List Char) (h : sep ∉ cs) :
    splitOnChar sep cs = [cs] := by
  induction cs with
  | nil => rfl
  | cons c rest ih =>
    rw [splitOnChar, if_neg fun he => h (by rw [← he]; exact List.mem_cons_self c rest),
      ih fun hm => h (List.mem_cons_of_mem c hm)]

theorem splitOnChar_append (sep : Char) (cs ds : List Char) (h : sep ∉ cs) :
    splitOnChar sep (cs ++ sep :: ds) = cs :: splitOnChar sep ds := by
  induction cs with
  | nil => rw [List.nil_append, splitOnChar, if_pos rfl]
  | cons c rest ih =>
    rw [List.cons_append, splitOnChar,
      if_neg fun he => h (by rw [← he]; exact List.mem_cons_self c rest),
      ih fun hm => h (List.mem_cons_of_mem c hm)]

theorem jsSplit_pipe_join (sid cid : String) (h1 : '|' ∉ sid.data)
    (h2 : '|' ∉ cid.data) : jsSplit '|' (sid ++ "|" ++ cid) = [sid, cid] := by
  have hdata : (sid ++ "|" ++ cid).data = sid.data ++ '|' :: cid.data := by
    simp [String.data_append]
  rw [jsSplit, hdata, splitOnChar_append _ _ _ h1, splitOnChar_of_not_mem _ _ h2]
  rfl

/-- C2 counterexample: grouping is by the joined string
`studentId|courseId`, not by the pair — the pair `("a|b", "c")` has grades
(non-zero summed maxScore), yet the compiled rows contain no row for it: its
grade was merged into the colliding key of the pair `("a", "b|c")`, leaving a
single row. -/
theorem gradeAggregation_counterexample :
    sumMaxFor [pipeGrade1, pipeGrade2] "a|b" "c" ≠ 0 ∧
    (compiledGradeRows [pipeGrade1, pipeGrade2]).length = 1 ∧
    ∀ row ∈ compiledGradeRows [pipeGrade1, pipeGrade2],
      ¬ (row.studentId = "a|b" ∧ row.courseId = "c") := by
  refine ⟨?_, by decide, by decide⟩
  simp [sumMaxFor, pipeGrade1, pipeGrade2]

/-- C2 (amended): the aggregation groups by the joined key string
`studentId|courseId`; when no grade's ids contain `'|'` this coincides with
grouping by the `(studentId, courseId)` pair, and then every pair with at
least one grade yields a compiled row whose `cumulative` is the
nearest-integer rounding of `(Σ score / Σ maxScore) * 100` when
`Σ maxScore ≠ 0` and `0` otherwise. -/
theorem compiledGradeRows_pair_spec (grades : List Grade)
    (hpipe : ∀ g ∈ grades, '|' ∉ g.studentId.data ∧ '|' ∉ g.courseId.data)
    (sid cid : String) (hg : ∃ g ∈ grades, g.studentId = sid ∧ g.courseId = cid) :
    ∃ row ∈ compiledGradeRows grades,
      row.studentId = sid ∧ row.courseId = cid ∧
      row.cumulative = if sumMaxFor grades sid cid ≠ 0
        then jsRound (sumScoreFor grades sid cid / sumMaxFor grades sid cid * 100)
        else 0 := by
  obtain ⟨g0, hg0, hsid0, hcid0⟩ := hg
  have hsidp : '|' ∉ sid.data := hsid0 ▸ (hpipe g0 hg0).1
  have hcidp : '|' ∉ cid.data := hcid0 ▸ (hpipe g0 hg0).2
  have hkeq : ∀ g ∈ grades,
      (gradeKey g = sid ++ "|" ++ cid ↔ g.studentId = sid ∧ g.courseId = cid) := by
    intro g hgm
    constructor
    · intro h
      exact string_pipe_join_inj g.studentId g.courseId sid cid (hpipe g hgm).1 hsidp h
    · rintro ⟨h1, h2⟩
      rw [gradeKey, h1, h2]
  have hfind := aggregateGrades_find grades (sid ++ "|" ++ cid)
    ⟨g0, hg0, (hkeq g0 hg0).mpr ⟨hsid0, hcid0⟩⟩
  have hS : sumScoreKey grades (sid ++ "|" ++ cid) = sumScoreFor grades sid cid := by
    rw [sumScoreKey, sumScoreFor]
    refine congrArg _ (congrArg _ (List.filter_congr fun g hgm => ?_))
    exact decide_eq_decide.mpr (hkeq g hgm)
  have hM : sumMaxKey grades (sid ++ "|" ++ cid) = sumMaxFor grades sid cid := by
    rw [sumMaxKey, sumMaxFor]
    refine congrArg _ (congrArg _ (List.filter_congr fun g hgm => ?_))
    exact decide_eq_decide.mpr (hkeq g hgm)
  have hmem : (sid ++ "|" ++ cid, (sumScoreKey grades (sid ++ "|" ++ cid),
      sumMaxKey grades (sid ++ "|" ++ cid))) ∈ aggregateGrades grades := by
    rw [assocFind] at hfind
    obtain ⟨q, hq, hq2⟩ := Option.map_eq_some'.mp hfind
    obtain ⟨qk, qv⟩ := q
    have hq1 : qk = sid ++ "|" ++ cid := by simpa using List.find?_some hq
    simp only at hq2
    rw [← hq2, ← hq1]
    exact List.mem_of_find?_eq_some hq
  refine ⟨_, List.mem_map.mpr ⟨_, hmem, rfl⟩, ?_, ?_, ?_⟩
  · show (jsSplit '|' (sid ++ "|" ++ cid)).headD "" = sid
    rw [jsSplit_pipe_join sid cid hsidp hcidp]
    rfl
  · show ((jsSplit '|' (sid ++ "|" ++ cid)).drop 1).headD "" = cid
    rw [jsSplit_pipe_join sid cid hsidp hcidp]
    rfl
  · show (if sumMaxKey grades (sid ++ "|" ++ cid) ≠ 0
        then jsRound (sumScoreKey grades (sid ++ "|" ++ cid) /
          sumMaxKey grades (sid ++ "|" ++ cid) * 100)
        else 0) = _
    rw [hS, hM]

theorem compiledGradeRows_pair_spec_witness :
    (∀ g ∈ [exGrade1, exGrade2], '|' ∉ g.studentId.data ∧ '|' ∉ g.courseId.data) ∧
    (∃ g ∈ [exGrade1, exGrade2], g.studentId = "s1" ∧ g.courseId = "c1") ∧
    ∃ row ∈ compiledGradeRows [exGrade1, exGrade2],
      row.studentId = "s1" ∧ row.courseId = "c1" ∧ row.cumulative = 45 := by
  obtain ⟨row, hmem, h1, h2, h3⟩ := compiledGradeRows_pair_spec [exGrade1, exGrade2]
    (by decide) "s1" "c1" (by decide)
  refine ⟨by decide, by decide, row, hmem, h1, h2, ?_⟩
  rw [h3]
  have hMv : sumMaxFor [exGrade1, exGrade2] "s1" "c1" = 110 := by
    simp [sumMaxFor, exGrade1, exGrade2]
    norm_num
  have hSv : sumScoreFor [exGrade1, exGrade2] "s1" "c1" = 50 := by
    simp [sumScoreFor, exGrade1, exGrade2]
    norm_num
  rw [hMv, hSv, if_pos (by norm_num)]
  norm_num [jsRound]

theorem assocFind_mem (l : List (String × α)) (k : String) (v : α)
    (h : assocFind l k = some v) : (k, v) ∈ l := by
  rw [assocFind] at h
  obtain ⟨q, hq, hq2⟩ := Option.map_eq_some'.mp h
  obtain ⟨qk, qv⟩ := q
  have hq1 : qk = k := by simpa using List.find?_some hq
  simp only at hq2
  rw [← hq1, ← hq2]
  exact List.mem_of_find?_eq_some hq

theorem mem_assocSet (l : List (String × α)) (k : String) (v : α) (p : String × α)
    (h : p ∈ assocSet l k v) : p ∈ l ∨ p = (k, v) := by
  rw [assocSet] at h
  split at h
  · obtain ⟨q, hq, hq2⟩ := List.mem_map.mp h
    split at hq2
    · exact Or.inr hq2.symm
    · exact Or.inl (hq2 ▸ hq)
  · rcases List.mem_append.mp h with h | h
    · exact Or.inl h
    · exact Or.inr (List.mem_singleton.mp h)

theorem mem_jsMapOfPairs (pairs : List (String × α)) (p : String × α)
    (h : p ∈ jsMapOfPairs pairs) : p ∈ pairs := by
  rw [jsMapOfPairs] at h
  suffices hs : ∀ m : List (String × α), p ∈ pairs.foldl (fun m p => assocSet m p.1 p.2) m →
      p ∈ m ∨ p ∈ pairs by
    rcases hs [] h with h | h
    · exact absurd h (List.not_mem_nil p)
    · exact h
  clear h
  induction pairs with
  | nil =>
    intro m hm
    exact Or.inl hm
  | cons q rest ih =>
    intro m hm
    rcases ih (assocSet m q.1 q.2) hm with hm' | hm'
    · rcases mem_assocSet m q.1 q.2 p hm' with hm'' | hm''
      · exact Or.inl hm''
      · exact Or.inr (hm'' ▸ List.mem_cons_self q rest)
    · exact Or.inr (List.mem_cons_of_mem q hm')

theorem jsMapOfPairs_has (pairs : List (String × α)) (k : String)
    (h : ∃ v, (k, v) ∈ pairs) : assocHas (jsMapOfPairs pairs) k := by
  rw [jsMapOfPairs]
  suffices hs : ∀ m : List (String × α), assocHas m k ∨ (∃ v, (k, v) ∈ pairs) →
      assocHas (pairs.foldl (fun m p => assocSet m p.1 p.2) m) k by
    exact hs [] (Or.inr h)
  clear h
  induction pairs with
  | nil =>
    rintro m (hm | ⟨v, hv⟩)
    · exact hm
    · exact absurd hv (List.not_mem_nil (k, v))
  | cons q rest ih =>
    rintro m (hm | ⟨v, hv⟩)
    · refine ih (assocSet m q.1 q.2) (Or.inl ?_)
      rw [assocHas_assocSet]
      simp [hm]
    · rcases List.mem_cons.mp hv with he | hm'
      · refine ih (assocSet m q.1 q.2) (Or.inl ?_)
        rw [assocHas_assocSet]
        have : q.1 = k := by rw [← he]
        simp [this]
      · exact ih (assocSet m q.1 q.2) (Or.inr ⟨v, hm'⟩)

theorem studentLookup_id (students : List Student) (i : String) (st : Student)
    (h : studentLookup students i = some st) : st.id = i := by
  rw [studentLookup] at h
  simpa using List.find?_some h

theorem mem_flatRoster_lookup (courses : List Course) (grades : List Grade)
    (students : List Student) (st : Student)
    (h : st ∈ flatRosterStudents courses grades students) :
    studentLookup students st.id = some st := by
  rw [flatRosterStudents] at h
  obtain ⟨ids, hids, hst⟩ := List.mem_flatten.mp h
  obtain ⟨p, hp, hpids⟩ := List.mem_map.mp hids
  rw [loginRosterStudentMap] at hp
  obtain ⟨q, _, hq⟩ := List.mem_map.mp hp
  rw [← hq] at hpids
  simp only at hpids
  rw [← hpids] at hst
  obtain ⟨i, _, hlk⟩ := List.mem_filterMap.mp hst
  have hid := studentLookup_id students i st hlk
  rw [← hid] at hlk
  exact hlk

theorem assocSet_keys_nodup (l : List (String × α)) (k : String) (v : α)
    (h : (l.map (·.1)).Nodup) : ((assocSet l k v).map (·.1)).Nodup := by
  by_cases hany : l.any fun p => p.1 = k
  · rw [assocSet_keys_of_has l k v hany]
    exact h
  · rw [assocSet, if_neg hany, List.map_append]
    refine List.Nodup.append h (List.nodup_singleton k) ?_
    intro a ha hak
    rw [List.map_singleton, List.mem_singleton] at hak
    obtain ⟨p, hp, hpk⟩ := List.mem_map.mp ha
    exact hany (List.any_eq_true.mpr ⟨p, hp, by simp [hpk, hak]⟩)

theorem jsMapOfPairs_keys_nodup {α : Type _} (pairs : List (String × α)) :
    ((jsMapOfPairs pairs).map (·.1)).Nodup := by
  rw [jsMapOfPairs]
  suffices hs : ∀ m : List (String × α), (m.map (·.1)).Nodup →
      ((pairs.foldl (fun m p => assocSet m p.1 p.2) m).map (·.1)).Nodup by
    exact hs [] List.nodup_nil
  induction pairs with
  | nil => exact fun m hm => hm
  | cons q rest ih =>
    intro m hm
    exact ih (assocSet m q.1 q.2) (assocSet_keys_nodup m q.1 q.2 hm)

theorem mem_myStudentsOver (courses : List Course) (grades : List Grade)
    (students : List Student) (st : Student) :
    st ∈ myStudentsOver courses grades students ↔
      st ∈ flatRosterStudents courses grades students := by
  constructor
  · intro h
    obtain ⟨p, hp, hp2⟩ := List.mem_map.mp h
    have hmem := mem_jsMapOfPairs _ p hp
    obtain ⟨s, hs, hps⟩ := List.mem_map.mp hmem
    rw [← hps] at hp2
    simp only at hp2
    rw [← hp2]
    exact hs
  · intro h
    have hhas : assocHas (jsMapOfPairs ((flatRosterStudents courses grades students).map
        fun s => (s.id, s))) st.id :=
      jsMapOfPairs_has _ st.id ⟨st, List.mem_map.mpr ⟨st, h, rfl⟩⟩
    rw [assocHas] at hhas
    obtain ⟨v, hfind⟩ := Option.isSome_iff_exists.mp hhas
    have hvmem := assocFind_mem _ _ _ hfind
    obtain ⟨s, hs, hps⟩ := List.mem_map.mp (mem_jsMapOfPairs _ _ hvmem)
    obtain ⟨h1, h2⟩ := Prod.mk.injEq .. ▸ hps
    have hlks := mem_flatRoster_lookup courses grades students s hs
    have hlkst := mem_flatRoster_lookup courses grades students st h
    rw [h1] at hlks
    have hsst : s = st := Option.some.inj (hlks.symm.trans hlkst)
    rw [myStudentsOver]
    exact List.mem_map.mpr ⟨(st.id, v), hvmem, by rw [← h2, hsst]⟩

theorem myStudentsOver_ids_nodup (courses : List Course) (grades : List Grade)
    (students : List Student) :
    ((myStudentsOver courses grades students).map (·.id)).Nodup := by
  rw [myStudentsOver, List.map_map]
  have heq : ((jsMapOfPairs ((flatRosterStudents courses grades students).map
      fun s => (s.id, s))).map ((·.id) ∘ (·.2))) =
      (jsMapOfPairs ((flatRosterStudents courses grades students).map
        fun s => (s.id, s))).map (·.1) := by
    apply List.map_congr_left
    intro p hp
    obtain ⟨s, _, hps⟩ := List.mem_map.mp (mem_jsMapOfPairs _ p hp)
    rw [← hps]
    rfl
  rw [heq]
  exact jsMapOfPairs_keys_nodup _

/-- C10: when the authenticated teacher owns no course, `TeacherStudents`
falls back to reconciling over **every** course, so "my students" equals the
all-courses reconciliation: its members are exactly the members of the
flattened per-course roster lists (the union of all courses' reconciled
rosters), deduplicated by student id. -/
theorem teacherStudents_fallback (tid : String) (courses : List Course)
    (grades : List Grade) (students : List Student)
    (hown : ∀ c ∈ courses, c.teacherId ≠ tid) :
    teacherStudentsLoad tid courses grades students =
      myStudentsOver courses grades students ∧
    (∀ st, st ∈ teacherStudentsLoad tid courses grades students ↔
      st ∈ flatRosterStudents courses grades students) ∧
    ((teacherStudentsLoad tid courses grades students).map (·.id)).Nodup := by
  have hfil : (courses.filter fun c => c.teacherId = tid) = [] :=
    List.filter_eq_nil_iff.mpr fun c hc => by simpa using hown c hc
  have heq : teacherStudentsLoad tid courses grades students =
      myStudentsOver courses grades students := by
    rw [teacherStudentsLoad]
    simp [hfil]
  refine ⟨heq, fun st => ?_, ?_⟩
  · rw [heq]
    exact mem_myStudentsOver courses grades students st
  · rw [heq]
    exact myStudentsOver_ids_nodup courses grades students

theorem teacherStudents_fallback_witness :
    (∀ c ∈ [exCourse], c.teacherId ≠ "t9") ∧
    teacherStudentsLoad "t9" [exCourse] [] [exStudent1, exStudent2] =
      myStudentsOver [exCourse] [] [exStudent1, exStudent2] ∧
    (teacherStudentsLoad "t9" [exCourse] [] [exStudent1, exStudent2]).map (·.id) =
      ["s1"] := by
  obtain ⟨h1, _, _⟩ :=
    teacherStudents_fallback "t9" [exCourse] [] [exStudent1, exStudent2] (by decide)
  exact ⟨by decide, h1, by decide⟩

end Portal
